import Mathlib

/-!
Shallow embedding of `src/devdocs/devdocs_service.py`.

Python strings are modelled as Lean strings. The slugs, doc names and
queries the service handles are ASCII and newline-free, so ASCII case
folding models `str.lower`, and a first-separator split models both the
regex match and `str.split` exactly on the inputs of interest.

Python's `sorted` and `list.sort` are stable sorts; a stable sort with
respect to a total preorder is unique as a function of the input list, so
they are embedded as `List.insertionSort`, which Mathlib proves sorted and
stable.
-/

/-- Characters treated as whitespace by Python `str.strip()`. -/
def pySpace (c : Char) : Bool :=
  c = ' ' || c = '\t' || c = '\n' || c = '\r' || c = Char.ofNat 11 || c = Char.ofNat 12

/-- Model of Python `str.strip()`: drop leading and trailing whitespace. -/
def pyStrip (s : String) : String :=
  String.mk (((s.toList.dropWhile pySpace).reverse.dropWhile pySpace).reverse)

/-- Model of Python `str.lower()` (ASCII case folding). -/
def pyLower (s : String) : String :=
  String.mk (s.toList.map Char.toLower)

/-- Decides whether `needle` occurs as a contiguous run inside `hay`
(model of the Python `in` operator on strings; the empty needle occurs in
every string). -/
def subOccurs (needle : List Char) : List Char → Bool
  | [] => needle.isEmpty
  | c :: cs => needle.isPrefixOf (c :: cs) || subOccurs needle cs

/-- Python `needle in hay` on strings. -/
def pyInStr (needle hay : String) : Bool :=
  subOccurs needle.toList hay.toList

/-- Model of Python `s.split(sep)` for a one-character separator: the
result never is empty, and empty segments are kept. -/
def splitOnChar (sep : Char) : List Char → List (List Char)
  | [] => [[]]
  | c :: cs =>
    if c = sep then [] :: splitOnChar sep cs
    else
      match splitOnChar sep cs with
      | [] => [[c]]
      | g :: gs => (c :: g) :: gs

/-- Numeric value of a nonempty string of ASCII digits. -/
def digitsVal : List Char → Option Nat
  | [] => none
  | ds =>
    if ds.all Char.isDigit then
      some (ds.foldl (fun a c => 10 * a + (c.toNat - 48)) 0)
    else none

/-- Model of Python `int(s)` on the version segments the service sees:
surrounding whitespace is stripped, one optional sign is allowed, and the
rest must be nonempty ASCII digits (digit-group underscores and non-ASCII
digits are not modelled). -/
def pyToInt (s : String) : Option Int :=
  match (pyStrip s).toList with
  | '+' :: ds => (digitsVal ds).map (fun n => (n : Int))
  | '-' :: ds => (digitsVal ds).map (fun n => -(n : Int))
  | ds => (digitsVal ds).map (fun n => (n : Int))

/-- Embedding of `DevDocsService.parse_version_to_tuple`: split the
version string on `.` and turn each segment into an integer, falling back
to `0` for a segment that does not parse. -/
def parse_version_to_tuple (version_str : String) : List Int :=
  (splitOnChar '.' version_str.toList).map
    (fun part => (pyToInt (String.mk part)).getD 0)

/-- Python `t1 <= t2` on int tuples: lexicographic, a strict prefix of the
other tuple is smaller. -/
def tupleLe : List Int → List Int → Bool
  | [], _ => true
  | _ :: _, [] => false
  | a :: xs, b :: ys => if a < b then true else if b < a then false else tupleLe xs ys

/-- Sorting relation of the version sort: compare slug/tuple pairs by
their tuple alone (the Python sort key `lambda x: x[1]`). -/
def tupleKeyLe (p q : String × List Int) : Prop :=
  tupleLe p.2 q.2 = true

instance : DecidableRel tupleKeyLe :=
  fun p q => inferInstanceAs (Decidable (_ = true))

/-- Embedding of the match of `^(.+?)~(.+)$` against a slug together with
`slug.split('~', 1)[1]`: for the newline-free slugs DevDocs serves, the
pattern matches exactly when the first `~` of the slug has a nonempty part
on each side; group 1 is the part before the first `~` and the split gives
the part after it. -/
def slugSplit (s : String) : Option (String × String) :=
  let pre := s.toList.takeWhile (fun c => c != '~')
  let post := (s.toList.dropWhile (fun c => c != '~')).tail
  if s.toList.contains '~' && !pre.isEmpty && !post.isEmpty then
    some (String.mk pre, String.mk post)
  else none

/-- Appends `v` to the list bound to `k` in an association list, keeping
insertion order and binding `k` at the end when absent (model of
`dict.setdefault(k, []).append(v)` over a `dict`, which preserves
insertion order). -/
def assocAppend : List (String × List String) → String → String → List (String × List String)
  | [], k, v => [(k, [v])]
  | (k', vs) :: rest, k, v =>
    if k' = k then (k', vs ++ [v]) :: rest else (k', vs) :: assocAppend rest k v

/-- Looks up a key in an association list (model of `dict` lookup for the
string-keyed maps the service builds, whose keys are unique). -/
def assocFind : List (String × List String) → String → Option (List String)
  | [], _ => none
  | (k', vs) :: rest, k => if k' = k then some vs else assocFind rest k

/-- Embedding of the first loop of `version_fallback`: group the versioned
slugs of the remote index by base name, in first-appearance order. -/
def buildBaseMap (all_slugs : List String) : List (String × List String) :=
  all_slugs.foldl
    (fun m slug =>
      match slugSplit slug with
      | some (base, _) => assocAppend m base slug
      | none => m)
    []

/-- Tuple parsed from the part of a slug after its first `~`, the
`version_part = s.split('~', 1)[1]` of `version_fallback` (only applied to
slugs that contain a `~`). -/
def slugTuple (s : String) : List Int :=
  parse_version_to_tuple (String.mk ((s.toList.dropWhile (fun c => c != '~')).tail))

/-- Embedding of the sorting loop of `version_fallback`: pair each slug of
a group with its version tuple and stable-sort ascending by tuple, as
Python `list.sort(key=...)` does, then keep the slugs. -/
def sortGroup (slugs : List String) : List String :=
  ((slugs.map (fun s => (s, slugTuple s))).insertionSort tupleKeyLe).map Prod.fst

/-- Embedding of the grouped-and-sorted `base_map` as it stands after the
second loop of `version_fallback`. -/
def resolvedBaseMap (all_slugs : List String) : List (String × List String) :=
  (buildBaseMap all_slugs).map (fun p => (p.1, sortGroup p.2))

/-- Embedding of the per-identifier branch of the final loop of
`version_fallback`: keep an identifier containing `~`; replace a bare name
bound in the base map by the last slug of its ascending group (`[-1]`);
keep anything else. The inner `none` case is unreachable, since the groups
built by `buildBaseMap` are nonempty. -/
def resolveDoc (base_map : List (String × List String)) (doc : String) : String :=
  if doc.toList.contains '~' then doc
  else
    match assocFind base_map doc with
    | some slugs =>
      match slugs.getLast? with
      | some s => s
      | none => doc
    | none => doc

/-- Embedding of `DevDocsService.version_fallback`. The remote index
fetched at its start is passed in as the list `all_slugs` of the slugs it
carries; the result is accumulated by appends, as in the source loop. -/
def version_fallback (all_slugs docs_to_fetch : List String) : List String :=
  docs_to_fetch.foldl
    (fun new_docs doc => new_docs ++ [resolveDoc (resolvedBaseMap all_slugs) doc]) []

/-- Row of longest-common-suffix lengths for the matching DP of
`difflib.SequenceMatcher.find_longest_match` (`newj2len`): entry `j` of
the result is the length of the longest common substring ending at the
current character `c` of `a` and at position `j` of `b`. `prev` is the
previous row and `diag` its entry one position to the left. -/
def lcsRow (c : Char) : List Char → List Nat → Nat → List Nat
  | [], _, _ => []
  | b :: bs, prev, diag =>
    (if b = c then diag + 1 else 0) :: lcsRow c bs prev.tail (prev.headD 0)

/-- Scan of one DP row (row index `i`, entries indexed by `j`), updating
the best `(besti, bestj, bestsize)` triple exactly when an entry strictly
exceeds the current best size, as the `find_longest_match` loop does. -/
def bestInRow (i : Nat) (row : List Nat) (best : Nat × Nat × Nat) : Nat × Nat × Nat :=
  row.enum.foldl
    (fun acc jk =>
      if jk.2 > acc.2.2 then (i + 1 - jk.2, jk.1 + 1 - jk.2, jk.2) else acc)
    best

/-- Embedding of `difflib.SequenceMatcher.find_longest_match` over the
whole of both sequences with no junk (`autojunk` only fires when the
second sequence has at least 200 elements, longer than any query the
service compares): returns `(besti, bestj, bestsize)`, the longest common
substring starting earliest in `a`, then earliest in `b`. -/
def findLongestMatch (a b : List Char) : Nat × Nat × Nat :=
  ((a.enum).foldl
    (fun st ic => (lcsRow ic.2 b st.1 0, bestInRow ic.1 (lcsRow ic.2 b st.1 0) st.2))
    (List.replicate b.length 0, ((0, 0, 0) : Nat × Nat × Nat))).2

/-- Total size of the matching blocks computed by
`difflib.SequenceMatcher.get_matching_blocks` (fuelled recursion; the
recursion depth is bounded by the length of `a`, so the fuel supplied by
`matchTotal` never runs out). -/
def matchTotalF : Nat → List Char → List Char → Nat
  | 0, _, _ => 0
  | fuel + 1, a, b =>
    if (findLongestMatch a b).2.2 = 0 then 0
    else
      matchTotalF fuel (a.take (findLongestMatch a b).1) (b.take (findLongestMatch a b).2.1) +
        (findLongestMatch a b).2.2 +
        matchTotalF fuel (a.drop ((findLongestMatch a b).1 + (findLongestMatch a b).2.2))
          (b.drop ((findLongestMatch a b).2.1 + (findLongestMatch a b).2.2))

/-- Total number of matched characters between `a` and `b` under the
`SequenceMatcher` matching. -/
def matchTotal (a b : List Char) : Nat :=
  matchTotalF (a.length + 1) a b

/-- Embedding of `difflib.SequenceMatcher(None, a, b).ratio()`: twice the
matched character count over the total length, and `1` when both strings
are empty (CPython computes the quotient in floating point; it is modelled
exactly as a rational). -/
def seqRatio (a b : String) : ℚ :=
  if a.length + b.length = 0 then 1
  else (2 * (matchTotal a.toList b.toList) : ℚ) / ((a.length + b.length : ℕ) : ℚ)

/-- JSON values, as the service's files and HTTP bodies carry them. A
non-integer numeric literal is kept as its raw token (`jfnum`), since the
service never computes with one. -/
inductive JValue where
  | jnull : JValue
  | jbool : Bool → JValue
  | jnum : Int → JValue
  | jfnum : String → JValue
  | jstr : String → JValue
  | jarr : List JValue → JValue
  | jobj : List (String × JValue) → JValue

/-- Lookup in the field list of a JSON object; with duplicate keys the
last binding wins, as in the `dict` built by `json.loads`. -/
def jLookup : List (String × JValue) → String → Option JValue
  | [], _ => none
  | p :: rest, k =>
    match jLookup rest k with
    | some v => some v
    | none => if p.1 = k then some p.2 else none

/-- Value of one hexadecimal digit. -/
def hexVal (c : Char) : Option Nat :=
  if c.isDigit then some (c.toNat - 48)
  else if 'a' ≤ c && c ≤ 'f' then some (c.toNat - 87)
  else if 'A' ≤ c && c ≤ 'F' then some (c.toNat - 55)
  else none

/-- JSON whitespace accepted between tokens by `json.loads`. -/
def jsonWs (c : Char) : Bool :=
  c = ' ' || c = '\t' || c = '\n' || c = '\r'

/-- Decoding of a one-character JSON string escape. -/
def escChar (e : Char) : Option Char :=
  if e = '"' then some '"'
  else if e = '\\' then some '\\'
  else if e = '/' then some '/'
  else if e = 'b' then some (Char.ofNat 8)
  else if e = 'f' then some (Char.ofNat 12)
  else if e = 'n' then some '\n'
  else if e = 'r' then some '\r'
  else if e = 't' then some '\t'
  else none

/-- Parses the body of a JSON string literal after the opening quote,
returning the decoded characters and the input after the closing quote.
Escapes are decoded as `json.loads` does; a `\uXXXX` escape whose code
point is not a Unicode scalar value is abstracted to the null character
(the service never meets one). Raw control characters are rejected, as in
the default strict mode. -/
def parseJStr : Nat → List Char → Option (List Char × List Char)
  | 0, _ => none
  | _ + 1, [] => none
  | fuel + 1, c :: cs =>
    if c = '"' then some ([], cs)
    else if c = '\\' then
      match cs with
      | [] => none
      | e :: cs2 =>
        if e = 'u' then
          match cs2 with
          | h1 :: h2 :: h3 :: h4 :: rest =>
            match hexVal h1, hexVal h2, hexVal h3, hexVal h4 with
            | some x1, some x2, some x3, some x4 =>
              (parseJStr fuel rest).map
                (fun r => (Char.ofNat (((x1 * 16 + x2) * 16 + x3) * 16 + x4) :: r.1, r.2))
            | _, _, _, _ => none
          | _ => none
        else
          match escChar e with
          | some ec => (parseJStr fuel cs2).map (fun r => (ec :: r.1, r.2))
          | none => none
    else if c.toNat < 32 then none
    else (parseJStr fuel cs).map (fun r => (c :: r.1, r.2))

/-- Parses a JSON number token per the `json` module grammar
`-?(0|[1-9][0-9]*)(\.[0-9]+)?([eE][+-]?[0-9]+)?`; an integer token becomes
`jnum`, any other numeric token is kept raw as `jfnum`. -/
def parseJNum (l : List Char) : Option (JValue × List Char) :=
  match (match l with | '-' :: rest => (true, rest) | _ => (false, l) : Bool × List Char) with
  | (neg, l1) =>
    match l1 with
    | [] => none
    | d :: rest =>
      if !d.isDigit then none
      else
        match (if d = '0' then (['0'], rest)
               else (d :: rest.takeWhile Char.isDigit, rest.dropWhile Char.isDigit) :
               List Char × List Char) with
        | (intPart, r1) =>
          match (match r1 with
                 | '.' :: r2 =>
                   if (r2.takeWhile Char.isDigit).isEmpty then none
                   else some ('.' :: r2.takeWhile Char.isDigit, r2.dropWhile Char.isDigit)
                 | _ => some ([], r1) :
                 Option (List Char × List Char)) with
          | none => none
          | some (fracPart, r3) =>
            match (match r3 with
                   | e :: r4 =>
                     if e = 'e' || e = 'E' then
                       match (match r4 with
                              | '+' :: r5 => (['+'], r5)
                              | '-' :: r5 => (['-'], r5)
                              | _ => ([], r4) :
                              List Char × List Char) with
                       | (sgn, r5) =>
                         if (r5.takeWhile Char.isDigit).isEmpty then none
                         else some (e :: (sgn ++ r5.takeWhile Char.isDigit),
                                    r5.dropWhile Char.isDigit)
                     else some ([], r3)
                   | [] => some ([], r3) :
                   Option (List Char × List Char)) with
            | none => none
            | some (expPart, r6) =>
              if fracPart.isEmpty && expPart.isEmpty then
                match digitsVal intPart with
                | some n => some (.jnum (if neg then -(n : Int) else (n : Int)), r6)
                | none => none
              else
                some (.jfnum (String.mk ((if neg then ['-'] else []) ++ intPart ++
                        fracPart ++ expPart)), r6)

/-- Parses the tail of a JSON array after `[`: either whitespace and `]`
(only allowed before the first element), or elements parsed by `pv` and
separated by commas, closed by `]`. -/
def parseJArrTail (pv : List Char → Option (JValue × List Char)) :
    Nat → Bool → List Char → Option (List JValue × List Char)
  | 0, _, _ => none
  | fuel + 1, first, l =>
    match l.dropWhile jsonWs with
    | [] => none
    | c :: cs =>
      if c = ']' && first then some ([], cs)
      else
        match pv (c :: cs) with
        | none => none
        | some (v, rest) =>
          match rest.dropWhile jsonWs with
          | ',' :: cs2 => (parseJArrTail pv fuel false cs2).map (fun r => (v :: r.1, r.2))
          | ']' :: cs2 => some ([v], cs2)
          | _ => none

/-- Parses the tail of a JSON object after the opening brace: either
whitespace and a closing brace (only allowed before the first member), or
`"key": value` members separated by commas. -/
def parseJObjTail (pv : List Char → Option (JValue × List Char)) :
    Nat → Bool → List Char → Option (List (String × JValue) × List Char)
  | 0, _, _ => none
  | fuel + 1, first, l =>
    match l.dropWhile jsonWs with
    | [] => none
    | c :: cs =>
      if c = Char.ofNat 125 && first then some ([], cs)
      else if c = '"' then
        match parseJStr (cs.length + 1) cs with
        | none => none
        | some (key, r1) =>
          match r1.dropWhile jsonWs with
          | ':' :: r2 =>
            match pv r2 with
            | none => none
            | some (v, r3) =>
              match r3.dropWhile jsonWs with
              | ',' :: r4 =>
                (parseJObjTail pv fuel false r4).map
                  (fun r => ((String.mk key, v) :: r.1, r.2))
              | c2 :: r4 =>
                if c2 = Char.ofNat 125 then some ([(String.mk key, v)], r4) else none
              | [] => none
          | _ => none
      else none

/-- Parses one JSON value after optional leading whitespace (model of the
`json.loads` grammar, including the CPython extras `NaN`, `Infinity` and
`-Infinity`, kept raw as `jfnum`), returning the unconsumed input. -/
def parseJValue : Nat → List Char → Option (JValue × List Char)
  | 0, _ => none
  | fuel + 1, l =>
    match l.dropWhile jsonWs with
    | [] => none
    | c :: cs =>
      if c = '"' then
        (parseJStr (cs.length + 1) cs).map (fun r => (JValue.jstr (String.mk r.1), r.2))
      else if c = '[' then
        (parseJArrTail (parseJValue fuel) (cs.length + 1) true cs).map
          (fun r => (JValue.jarr r.1, r.2))
      else if c = Char.ofNat 123 then
        (parseJObjTail (parseJValue fuel) (cs.length + 1) true cs).map
          (fun r => (JValue.jobj r.1, r.2))
      else if ['t', 'r', 'u', 'e'].isPrefixOf (c :: cs) then
        some (JValue.jbool true, (c :: cs).drop 4)
      else if ['f', 'a', 'l', 's', 'e'].isPrefixOf (c :: cs) then
        some (JValue.jbool false, (c :: cs).drop 5)
      else if ['n', 'u', 'l', 'l'].isPrefixOf (c :: cs) then
        some (JValue.jnull, (c :: cs).drop 4)
      else if ['N', 'a', 'N'].isPrefixOf (c :: cs) then
        some (JValue.jfnum "NaN", (c :: cs).drop 3)
      else if ['I', 'n', 'f', 'i', 'n', 'i', 't', 'y'].isPrefixOf (c :: cs) then
        some (JValue.jfnum "Infinity", (c :: cs).drop 8)
      else if ['-', 'I', 'n', 'f', 'i', 'n', 'i', 't', 'y'].isPrefixOf (c :: cs) then
        some (JValue.jfnum "-Infinity", (c :: cs).drop 9)
      else parseJNum (c :: cs)

/-- Model of `json.loads`: parse one value and require only whitespace
after it. -/
def pyJsonLoads (s : String) : Option JValue :=
  match parseJValue (s.length + 1) s.toList with
  | some (v, rest) => if (rest.dropWhile jsonWs).isEmpty then some v else none
  | none => none

/-- On-disk state the service touches: the set of existing directories and
the parsed JSON content of the existing files. A JSON file is modelled by
the value it holds, since `json.dump` followed by `json.load` round-trips;
the file list's keys are unique, every write replacing the previous
binding of its path. -/
structure FS where
  dirs : List String
  files : List (String × JValue)

/-- Model of `os.path.isdir`. -/
def FS.isDir (fs : FS) (p : String) : Prop :=
  p ∈ fs.dirs

instance (fs : FS) (p : String) : Decidable (fs.isDir p) :=
  inferInstanceAs (Decidable (p ∈ fs.dirs))

/-- Model of `os.path.exists`: true for a directory or a file. -/
def FS.exists1 (fs : FS) (p : String) : Prop :=
  p ∈ fs.dirs ∨ (jLookup fs.files p).isSome = true

instance (fs : FS) (p : String) : Decidable (fs.exists1 p) :=
  inferInstanceAs (Decidable (_ ∨ _))

/-- Writes a value at a path, replacing a previous binding in place. -/
def setFile (files : List (String × JValue)) (p : String) (v : JValue) :
    List (String × JValue) :=
  if (jLookup files p).isSome then
    files.map (fun q => if q.1 = p then (p, v) else q)
  else files ++ [(p, v)]

/-- Path `self.index_file`, from `os.path.join(cache_dir, "index.json")`
(joining with `/`; a cache path already ending in a separator is not
modelled). -/
def index_file (cache_dir : String) : String :=
  cache_dir ++ "/index.json"

/-- Path `self.entries_dir`, from `os.path.join(cache_dir, "entries")`. -/
def entries_dir (cache_dir : String) : String :=
  cache_dir ++ "/entries"

/-- Per-slug entries path `os.path.join(self.entries_dir, slug + ".json")`
(slugs carry no path separator). -/
def entries_file (cache_dir slug : String) : String :=
  entries_dir cache_dir ++ "/" ++ slug ++ ".json"

/-- Third step of `ensure_cache_dirs`: `os.mkdir(self.entries_dir)` when
it is not a directory yet; `none` models the `OSError` raised when the
path exists as a file or when the cache root is not a directory. -/
def mkEntriesDir (cache_dir : String) (fs : FS) : Option FS :=
  if fs.isDir (entries_dir cache_dir) then some fs
  else if fs.exists1 (entries_dir cache_dir) then none
  else if fs.isDir cache_dir then
    some { fs with dirs := fs.dirs ++ [entries_dir cache_dir] }
  else none

/-- Second step of `ensure_cache_dirs`: write `[]` into the index file
when nothing exists at its path (`none` models the `OSError` of writing
while the cache root is not a directory), then ensure the entries
directory. -/
def writeIndexStep (cache_dir : String) (fs1 : FS) : Option FS :=
  if fs1.exists1 (index_file cache_dir) then mkEntriesDir cache_dir fs1
  else if fs1.isDir cache_dir then
    mkEntriesDir cache_dir
      { fs1 with files := setFile fs1.files (index_file cache_dir) (JValue.jarr []) }
  else none

/-- Embedding of `DevDocsService.ensure_cache_dirs`: create the cache root
when nothing exists at its path (`os.makedirs` creating missing ancestors
is abstracted to creating the root itself), then write the empty index and
ensure the entries directory; `none` models an uncaught `OSError`. -/
def ensure_cache_dirs (cache_dir : String) (fs : FS) : Option FS :=
  writeIndexStep cache_dir
    (if fs.exists1 cache_dir then fs else { fs with dirs := fs.dirs ++ [cache_dir] })

/-- Embedding of `DevDocsService.fetch_doc_entries`: the body fetched over
HTTP for `doc` is passed in as `entries`, and persisting it with
`json.dump` stores the value at the per-slug path. `none` models an
`OSError` from `open` (entries directory missing, or the target path is an
existing directory). -/
def fetch_doc_entries (cache_dir doc : String) (entries : JValue) (fs : FS) : Option FS :=
  if fs.isDir (entries_dir cache_dir) ∧ ¬ fs.isDir (entries_file cache_dir doc) then
    some { fs with files := setFile fs.files (entries_file cache_dir doc) entries }
  else none

/-- Python `x['name'].lower()` succeeds exactly on an object carrying a
string at key `name`; every other shape raises (`TypeError`, `KeyError` or
`AttributeError`), modelled as `none`. -/
def entryName : JValue → Option String
  | .jobj fields =>
    match jLookup fields "name" with
    | some (.jstr s) => some s
    | _ => none
  | _ => none

/-- One pass of the name filter
`[x for x in data if query.strip().lower() in x['name'].lower()]`, failing
(`none`) when an element has no string name, as Python raises. -/
def filterByName (q : String) : List JValue → Option (List JValue)
  | [] => some []
  | x :: xs =>
    match entryName x with
    | none => none
    | some nm =>
      match filterByName q xs with
      | none => none
      | some rest =>
        if pyInStr (pyLower (pyStrip q)) (pyLower nm) then some (x :: rest)
        else some rest

/-- Embedding of `DevDocsService.get_docs` (default argument
`query=None`): read the index file, and filter by name when the query is
truthy. `none` models an uncaught exception: missing or unreadable index
file, a non-iterable index value, or an index entry without a string
name. -/
def get_docs (cache_dir : String) (fs : FS) (query : Option String) : Option JValue :=
  match jLookup fs.files (index_file cache_dir) with
  | none => none
  | some data =>
    match query with
    | some q =>
      if q != "" then
        match data with
        | .jarr xs => (filterByName q xs).map JValue.jarr
        | _ => none
      else some data
    | none => some data

/-- Names of a list of entries, each obtained as `x['name']`; fails when
one is missing, as the comprehension over the entries does. -/
def withNames : List JValue → Option (List (JValue × String))
  | [] => some []
  | x :: xs =>
    match entryName x, withNames xs with
    | some nm, some rest => some ((x, nm) :: rest)
    | _, _ => none

/-- Order of the descending relevance sort of `get_doc_entries`: `p` sorts
no later than `p'` exactly when the similarity ratio of `p`'s name against
the query is at least that of `p'`'s name. The comparison is by
cross-multiplication over `ℕ`; for a nonempty query both denominators are
positive, making it exactly `seqRatio p'.2 query ≤ seqRatio p.2 query`,
and the sort only runs for truthy queries. -/
def entryBefore (query : String) (p p' : JValue × String) : Prop :=
  2 * matchTotal p'.2.toList query.toList * (p.2.length + query.length) ≤
    2 * matchTotal p.2.toList query.toList * (p'.2.length + query.length)

instance (query : String) : DecidableRel (entryBefore query) :=
  fun p p' => Nat.decLe _ _

/-- Filter-and-rank step of `get_doc_entries` for a truthy query: keep the
entries whose name contains the trimmed lowered query, then stable-sort
them by decreasing similarity ratio against the raw query, as
`sorted(key=..., reverse=True)` does. -/
def rankEntries (query : String) (xs : List JValue) : Option JValue :=
  match withNames xs with
  | none => none
  | some pairs =>
    some (.jarr
      (((pairs.filter
            (fun p => pyInStr (pyLower (pyStrip query)) (pyLower p.2))).insertionSort
          (entryBefore query)).map Prod.fst))

/-- Embedding of `DevDocsService.get_doc_entries` (default argument
`query=""`): a missing entries file yields the empty list; otherwise the
file's `entries` field is returned, filtered by name and re-ranked by
similarity when the query is truthy. `none` models an uncaught exception:
unreadable path, data without an `entries` object field, or an entry
without a string name. -/
def get_doc_entries (cache_dir lang_slug : String) (fs : FS) (query : String) :
    Option JValue :=
  if ¬ fs.exists1 (entries_file cache_dir lang_slug) then some (.jarr [])
  else
    match jLookup fs.files (entries_file cache_dir lang_slug) with
    | none => none
    | some data =>
      match data with
      | .jobj fields =>
        match jLookup fields "entries" with
        | none => none
        | some e =>
          if query != "" then
            match e with
            | .jarr xs => rankEntries query xs
            | _ => none
          else some e
      | _ => none

/-- Iterating a parsed JSON value and using each element as a string, as
the final loop of `version_fallback` does: an array yields its elements,
which must all be strings; a string yields its characters; an object
yields its keys (duplicate keys, which a real `dict` would merge, do not
arise). Anything else raises, modelled as `none`. -/
def pyIterStrs : JValue → Option (List String)
  | .jarr xs => xs.mapM (fun x => match x with | .jstr s => some s | _ => none)
  | .jstr s => some (s.toList.map (fun c => String.mk [c]))
  | .jobj fields => some (fields.map Prod.fst)
  | _ => none

/-- Argument of `set_docs_to_fetch`: a native list or a string. -/
inductive DocsArg where
  | ofStr : String → DocsArg
  | ofList : List String → DocsArg

/-- Embedding of `DevDocsService.set_docs_to_fetch`: a string argument is
parsed as JSON, any parse failure being swallowed into the empty list; the
parsed value is then resolved by `version_fallback`, which needs string
items (`none` models the `TypeError` it otherwise raises). Returns the
value stored into `self.docs_to_fetch`. -/
def set_docs_to_fetch (all_slugs : List String) (docs : DocsArg) : Option (List String) :=
  match docs with
  | .ofList l => some (version_fallback all_slugs l)
  | .ofStr s =>
    match pyJsonLoads s with
    | none => some (version_fallback all_slugs [])
    | some j =>
      match pyIterStrs j with
      | some l => some (version_fallback all_slugs l)
      | none => none

/-! Order lemmas for the version-tuple comparison. -/

lemma tupleLe_refl : ∀ t, tupleLe t t = true
  | [] => rfl
  | _ :: xs => by simp [tupleLe, lt_irrefl, tupleLe_refl xs]

lemma tupleLe_total : ∀ s t, tupleLe s t = true ∨ tupleLe t s = true
  | [], _ => .inl rfl
  | _ :: _, [] => .inr rfl
  | a :: xs, b :: ys => by
    rcases lt_trichotomy a b with h | h | h
    · exact .inl (by simp [tupleLe, h])
    · subst h
      rcases tupleLe_total xs ys with h | h
      · exact .inl (by simp [tupleLe, lt_irrefl, h])
      · exact .inr (by simp [tupleLe, lt_irrefl, h])
    · exact .inr (by simp [tupleLe, h])

lemma tupleLe_trans : ∀ s t u, tupleLe s t = true → tupleLe t u = true → tupleLe s u = true := by
  intro s
  induction s with
  | nil => intro t u _ _; rfl
  | cons a xs ih =>
    intro t u h1 h2
    match t, u with
    | [], _ => simp [tupleLe] at h1
    | _ :: _, [] => simp [tupleLe] at h2
    | b :: ys, c :: zs =>
      rcases lt_trichotomy a b with hab | hab | hab
      · rcases lt_trichotomy b c with hbc | hbc | hbc
        · simp [tupleLe, hab.trans hbc]
        · subst hbc; simp [tupleLe, hab]
        · simp [tupleLe, lt_asymm hbc, hbc] at h2
      · subst hab
        rcases lt_trichotomy a c with hbc | hbc | hbc
        · simp [tupleLe, hbc]
        · subst hbc
          simp only [tupleLe, lt_irrefl, if_false] at h1 h2 ⊢
          exact ih ys zs h1 h2
        · simp [tupleLe, lt_asymm hbc, hbc] at h2
      · simp [tupleLe, lt_asymm hab, hab] at h1

instance : IsTotal (String × List Int) tupleKeyLe :=
  ⟨fun p q => tupleLe_total p.2 q.2⟩

instance : IsTrans (String × List Int) tupleKeyLe :=
  ⟨fun _ _ _ h1 h2 => tupleLe_trans _ _ _ h1 h2⟩

/-- In a `Pairwise r` list with `r` reflexive, every element is related to
the last element. -/
lemma pairwise_rel_getLast {α : Type} {r : α → α → Prop} (hrefl : ∀ a, r a a) :
    ∀ {l : List α} {s : α}, l.Pairwise r → l.getLast? = some s → ∀ x ∈ l, r x s := by
  intro l
  induction l with
  | nil => intro s _ h; simp at h
  | cons a t ih =>
    intro s hp hl x hx
    cases t with
    | nil =>
      have hs : a = s := by simpa using hl
      have hx' : x = a := by simpa using hx
      subst hs; subst hx'; exact hrefl _
    | cons b t2 =>
      rw [List.getLast?_cons_cons] at hl
      rcases List.mem_cons.mp hx with hx' | hx'
      · subst hx'
        exact (List.pairwise_cons.mp hp).1 s (List.mem_of_getLast?_eq_some hl)
      · exact ih (List.pairwise_cons.mp hp).2 hl x hx'

/-- Mapping a function over the values of an association list commutes
with lookup. -/
lemma assocFind_map (f : List String → List String) :
    ∀ (l : List (String × List String)) (k : String),
      assocFind (l.map (fun p => (p.1, f p.2))) k = (assocFind l k).map f := by
  intro l k
  induction l with
  | nil => rfl
  | cons p rest ih =>
    by_cases h : p.1 = k <;> simp [assocFind, h, ih]

/-- Accumulating appends in a left fold is a map. -/
lemma foldl_append_map {α β : Type} (f : β → α) :
    ∀ (l : List β) (acc : List α), l.foldl (fun a b => a ++ [f b]) acc = acc ++ l.map f := by
  intro l
  induction l with
  | nil => simp
  | cons b t ih => intro acc; simp [List.foldl, ih]

/-- Resolution maps `resolveDoc` over the input. -/
lemma version_fallback_eq_map (all_slugs docs : List String) :
    version_fallback all_slugs docs = docs.map (resolveDoc (resolvedBaseMap all_slugs)) := by
  unfold version_fallback
  rw [foldl_append_map]
  simp

/-- Sorting a group permutes it. -/
lemma sortGroup_perm (g : List String) : List.Perm (sortGroup g) g := by
  unfold sortGroup
  have h := (List.perm_insertionSort tupleKeyLe (g.map (fun s => (s, slugTuple s)))).map Prod.fst
  simpa [List.map_map, Function.comp_def] using h

/-- The last element of a sorted group has the greatest version tuple. -/
lemma sortGroup_getLast_max (g : List String) (s : String)
    (hl : (sortGroup g).getLast? = some s) :
    ∀ t ∈ g, tupleLe (slugTuple t) (slugTuple s) = true := by
  intro t ht
  unfold sortGroup at hl
  rw [List.getLast?_map] at hl
  rcases Option.map_eq_some'.mp hl with ⟨p, hp, hps⟩
  have hsorted : (List.insertionSort tupleKeyLe (g.map (fun s => (s, slugTuple s)))).Pairwise
      tupleKeyLe := List.sorted_insertionSort tupleKeyLe _
  have hmem : (t, slugTuple t) ∈
      List.insertionSort tupleKeyLe (g.map (fun s => (s, slugTuple s))) := by
    rw [List.mem_insertionSort]
    exact List.mem_map_of_mem _ ht
  have hrel : tupleKeyLe (t, slugTuple t) p :=
    pairwise_rel_getLast (r := tupleKeyLe) (fun q => tupleLe_refl q.2) hsorted hp _ hmem
  have hpmem : p ∈ g.map (fun s => (s, slugTuple s)) :=
    (List.mem_insertionSort _).mp (List.mem_of_getLast?_eq_some hp)
  rcases List.mem_map.mp hpmem with ⟨x, _, hxp⟩
  have hp2 : p.2 = slugTuple p.1 := by rw [← hxp]
  have hrel' : tupleLe (slugTuple t) (slugTuple p.1) = true := by
    unfold tupleKeyLe at hrel
    rwa [hp2] at hrel
  rwa [hps] at hrel'

/-- C1: for every version group (slugs sharing a base name before `~`),
resolving the bare base name yields the variant slug whose version part
parses to the greatest numeric-component tuple; the group is sorted
ascending by tuple and the last element is selected. -/
theorem C1_resolve_bare_name_highest_version
    (all_slugs : List String) (base : String) (g : List String)
    (hb : base.toList.contains '~' = false)
    (hg : assocFind (buildBaseMap all_slugs) base = some g)
    (hne : g ≠ []) :
    ∃ s, (sortGroup g).getLast? = some s ∧
      version_fallback all_slugs [base] = [s] ∧
      s ∈ g ∧
      ∀ t ∈ g, tupleLe (slugTuple t) (slugTuple s) = true := by
  have hsg_ne : sortGroup g ≠ [] := by
    intro h
    have hlen := (sortGroup_perm g).length_eq
    rw [h] at hlen
    exact hne (List.length_eq_zero.mp hlen.symm)
  obtain ⟨s, hs⟩ :=
    Option.isSome_iff_exists.mp (List.getLast?_isSome.mpr hsg_ne)
  refine ⟨s, hs, ?_, ?_, sortGroup_getLast_max g s hs⟩
  · rw [version_fallback_eq_map]
    simp [resolveDoc, hb, resolvedBaseMap, assocFind_map sortGroup, hg, hs]
    intro hmem
    exact absurd hmem (by simpa using hb)
  · exact (sortGroup_perm g).mem_iff.mp (List.mem_of_getLast?_eq_some hs)

/-- C1 witness: given remote slugs `python~3.9`, `python~3.10`,
`python~3.8`, resolving `python` yields `python~3.10` (numeric tuple
comparison, not string comparison). -/
theorem C1_resolve_bare_name_highest_version_witness :
    version_fallback ["python~3.9", "python~3.10", "python~3.8"] ["python"] =
      ["python~3.10"] := by
  obtain ⟨s, hs1, hs2, _, _⟩ :=
    C1_resolve_bare_name_highest_version ["python~3.9", "python~3.10", "python~3.8"]
      "python" ["python~3.9", "python~3.10", "python~3.8"] rfl rfl (by decide)
  have he : (sortGroup ["python~3.9", "python~3.10", "python~3.8"]).getLast? =
      some "python~3.10" := rfl
  rw [he] at hs1
  injection hs1 with h
  rw [hs2, ← h]

/-- C2 counterexample: `4.beta` does not sort strictly below `4.0` (their
tuples are equal), and with the variants in remote order
`[base~4.0, base~4.beta]` resolving the bare base yields `base~4.beta`,
not `base~4.0` — so the selection is not independent of remote order. -/
theorem C2_counterexample_equal_tuples_order_dependent :
    parse_version_to_tuple "4.beta" = parse_version_to_tuple "4.0" ∧
    version_fallback ["base~4.0", "base~4.beta"] ["base"] = ["base~4.beta"] :=
  ⟨rfl, rfl⟩

/-- C2 amended: under the parse-non-numeric-segment-as-0 fallback,
`4.beta` parses to the same tuple `[4, 0]` as `4.0`, so the two variants
compare equal; the ascending sort is stable, so resolving the bare base
selects whichever variant appears last in the remote index: `base~4.0`
for remote order `[base~4.beta, base~4.0]`, and `base~4.beta` for the
opposite order. -/
theorem C2_amended_equal_tuples_last_remote_wins :
    parse_version_to_tuple "4.beta" = [4, 0] ∧
    parse_version_to_tuple "4.0" = [4, 0] ∧
    version_fallback ["base~4.beta", "base~4.0"] ["base"] = ["base~4.0"] ∧
    version_fallback ["base~4.0", "base~4.beta"] ["base"] = ["base~4.beta"] :=
  ⟨rfl, rfl, rfl, rfl⟩

/-- C4: version resolution maps the input list pointwise (same length and
order; the caller's list is never mutated, the output being freshly
accumulated); an identifier containing `~` is kept as-is, an identifier
without `~` whose name is a known versioned base is replaced by that
base's highest-version slug (the last of its ascending group), and any
other identifier is kept as-is. -/
theorem C4_resolution_pointwise (all_slugs docs : List String) :
    version_fallback all_slugs docs = docs.map (resolveDoc (resolvedBaseMap all_slugs)) ∧
    (version_fallback all_slugs docs).length = docs.length ∧
    (∀ d, d.toList.contains '~' = true → resolveDoc (resolvedBaseMap all_slugs) d = d) ∧
    (∀ d, d.toList.contains '~' = false → assocFind (resolvedBaseMap all_slugs) d = none →
      resolveDoc (resolvedBaseMap all_slugs) d = d) ∧
    (∀ d g s, d.toList.contains '~' = false →
      assocFind (resolvedBaseMap all_slugs) d = some g → g.getLast? = some s →
      resolveDoc (resolvedBaseMap all_slugs) d = s) := by
  refine ⟨version_fallback_eq_map _ _, ?_, ?_, ?_, ?_⟩
  · rw [version_fallback_eq_map]; simp
  · intro d hd
    simp [resolveDoc, hd]
    intro hnot
    exact absurd (by simpa using hd) hnot
  · intro d hd hfind; simp [resolveDoc, hd, hfind]
  · intro d g s hd hfind hlast
    simp [resolveDoc, hd, hfind, hlast]
    intro hmem
    exact absurd hmem (by simpa using hd)

/-- C4 witness: an already-versioned identifier passes through unchanged,
an identifier with a known base is replaced by the highest version, an
unknown one passes through; output has the input's length and order. -/
theorem C4_resolution_pointwise_witness :
    version_fallback ["python~3.9", "python~3.10"] ["a~b", "python", "zzz"] =
      ["a~b", "python~3.10", "zzz"] ∧
    resolveDoc (resolvedBaseMap ["python~3.9", "python~3.10"]) "a~b" = "a~b" := by
  have h := C4_resolution_pointwise ["python~3.9", "python~3.10"] ["a~b", "python", "zzz"]
  constructor
  · rw [h.1]; rfl
  · exact h.2.2.1 "a~b" rfl

/-! Lemmas about file lookup and writing. -/

lemma jLookup_append (l1 l2 : List (String × JValue)) (k : String) :
    jLookup (l1 ++ l2) k =
      match jLookup l2 k with
      | some v => some v
      | none => jLookup l1 k := by
  induction l1 with
  | nil => cases h : jLookup l2 k <;> simp [jLookup, h]
  | cons p rest ih =>
    show (match jLookup (rest ++ l2) k with
      | some v => some v
      | none => if p.1 = k then some p.2 else none) = _
    rw [ih]
    cases h : jLookup l2 k <;> cases h2 : jLookup rest k <;> simp [jLookup, h, h2]

lemma jLookup_map_replace (p : String) (v : JValue) (files : List (String × JValue)) :
    jLookup (files.map (fun q => if q.1 = p then (p, v) else q)) p =
      (jLookup files p).map (fun _ => v) := by
  induction files with
  | nil => rfl
  | cons q rest ih =>
    show (match jLookup (rest.map (fun q => if q.1 = p then (p, v) else q)) p with
      | some w => some w
      | none => if (if q.1 = p then (p, v) else q).1 = p then
          some (if q.1 = p then (p, v) else q).2 else none) = _
    rw [ih]
    cases h : jLookup rest p with
    | some w => simp [jLookup, h]
    | none =>
      by_cases hq : q.1 = p <;> simp [jLookup, h, hq]

lemma jLookup_map_replace_ne (p k : String) (v : JValue) (files : List (String × JValue))
    (hne : k ≠ p) :
    jLookup (files.map (fun q => if q.1 = p then (p, v) else q)) k = jLookup files k := by
  induction files with
  | nil => rfl
  | cons q rest ih =>
    show (match jLookup (rest.map (fun q => if q.1 = p then (p, v) else q)) k with
      | some w => some w
      | none => if (if q.1 = p then (p, v) else q).1 = k then
          some (if q.1 = p then (p, v) else q).2 else none) = _
    rw [ih]
    by_cases hq : q.1 = p
    · cases h : jLookup rest k <;> simp [jLookup, h, hq, Ne.symm hne]
    · cases h : jLookup rest k <;> simp [jLookup, h, hq]

lemma jLookup_setFile_self (files : List (String × JValue)) (p : String) (v : JValue) :
    jLookup (setFile files p v) p = some v := by
  unfold setFile
  by_cases h : (jLookup files p).isSome = true
  · rw [if_pos h, jLookup_map_replace]
    rcases Option.isSome_iff_exists.mp h with ⟨w, hw⟩
    rw [hw]; rfl
  · rw [if_neg h, jLookup_append]
    simp [jLookup]

lemma jLookup_setFile_ne (files : List (String × JValue)) (p k : String) (v : JValue)
    (hne : k ≠ p) :
    jLookup (setFile files p v) k = jLookup files k := by
  unfold setFile
  by_cases h : (jLookup files p).isSome = true
  · rw [if_pos h, jLookup_map_replace_ne _ _ _ _ hne]
  · rw [if_neg h, jLookup_append]
    cases hk : jLookup files k with
    | some w => simp [jLookup, hk, Ne.symm hne]
    | none => simp [jLookup, hk, Ne.symm hne]

/-! String inequalities between the three cache paths. -/

lemma index_file_ne_cache (cache_dir : String) : index_file cache_dir ≠ cache_dir := by
  intro h
  have h1 := congrArg String.length h
  rw [index_file, String.length_append] at h1
  have h2 : ("/index.json").length = 11 := rfl
  omega

lemma entries_dir_ne_cache (cache_dir : String) : entries_dir cache_dir ≠ cache_dir := by
  intro h
  have h1 := congrArg String.length h
  rw [entries_dir, String.length_append] at h1
  have h2 : ("/entries").length = 8 := rfl
  omega

lemma entries_dir_ne_index (cache_dir : String) :
    entries_dir cache_dir ≠ index_file cache_dir := by
  intro h
  have h1 := congrArg String.length h
  rw [entries_dir, index_file, String.length_append, String.length_append] at h1
  have h2 : ("/entries").length = 8 := rfl
  have h3 : ("/index.json").length = 11 := rfl
  omega

/-- What a successful `mkEntriesDir` guarantees. -/
lemma mkEntriesDir_spec (cache_dir : String) (fs fs' : FS)
    (h : mkEntriesDir cache_dir fs = some fs') :
    fs'.files = fs.files ∧ (∀ p, p ∈ fs.dirs → p ∈ fs'.dirs) ∧
      fs'.isDir (entries_dir cache_dir) ∧
      (fs.isDir (entries_dir cache_dir) → fs' = fs) := by
  unfold mkEntriesDir at h
  by_cases h1 : fs.isDir (entries_dir cache_dir)
  · rw [if_pos h1] at h
    injection h with h
    subst h
    exact ⟨rfl, fun p hp => hp, h1, fun _ => rfl⟩
  · rw [if_neg h1] at h
    by_cases h2 : fs.exists1 (entries_dir cache_dir)
    · rw [if_pos h2] at h; exact absurd h (by simp)
    · rw [if_neg h2] at h
      by_cases h3 : fs.isDir cache_dir
      · rw [if_pos h3] at h
        injection h with h
        subst h
        refine ⟨rfl, fun p hp => List.mem_append_left _ hp, ?_, fun hc => absurd hc h1⟩
        show entries_dir cache_dir ∈ fs.dirs ++ [entries_dir cache_dir]
        simp
      · rw [if_neg h3] at h; exact absurd h (by simp)

/-- What a successful `writeIndexStep` guarantees: files only change at
the index path, directories only grow, and afterwards the index path
exists and the entries directory is a directory. -/
lemma writeIndexStep_spec (cache_dir : String) (fs1 fs' : FS)
    (h : writeIndexStep cache_dir fs1 = some fs') :
    (∀ p, p ∈ fs1.dirs → p ∈ fs'.dirs) ∧
      (∀ k, k ≠ index_file cache_dir → jLookup fs'.files k = jLookup fs1.files k) ∧
      fs'.exists1 (index_file cache_dir) ∧
      fs'.isDir (entries_dir cache_dir) := by
  unfold writeIndexStep at h
  by_cases g2 : fs1.exists1 (index_file cache_dir)
  · rw [if_pos g2] at h
    obtain ⟨hfiles, hdirs, hent, _⟩ := mkEntriesDir_spec _ _ _ h
    refine ⟨hdirs, fun k _ => by rw [hfiles], ?_, hent⟩
    rcases g2 with hd | hf
    · exact Or.inl (hdirs _ hd)
    · exact Or.inr (by rw [hfiles]; exact hf)
  · rw [if_neg g2] at h
    by_cases g3 : fs1.isDir cache_dir
    · rw [if_pos g3] at h
      obtain ⟨hfiles, hdirs, hent, _⟩ := mkEntriesDir_spec _ _ _ h
      refine ⟨hdirs, ?_, Or.inr ?_, hent⟩
      · intro k hk
        rw [hfiles]
        exact jLookup_setFile_ne _ _ _ _ hk
      · rw [hfiles]
        simp [jLookup_setFile_self]
    · rw [if_neg g3] at h; exact absurd h (by simp)

/-- After a successful bootstrap, the cache root exists, the index file
exists, and the entries directory is a directory. -/
lemma ensure_cache_dirs_spec (cache_dir : String) (fs fs' : FS)
    (h : ensure_cache_dirs cache_dir fs = some fs') :
    fs'.exists1 cache_dir ∧ fs'.exists1 (index_file cache_dir) ∧
      fs'.isDir (entries_dir cache_dir) := by
  unfold ensure_cache_dirs at h
  by_cases g1 : fs.exists1 cache_dir
  · rw [if_pos g1] at h
    obtain ⟨hdirs, hfiles, hidx, hent⟩ := writeIndexStep_spec _ _ _ h
    refine ⟨?_, hidx, hent⟩
    rcases g1 with hd | hf
    · exact Or.inl (hdirs _ hd)
    · refine Or.inr ?_
      rw [hfiles cache_dir (Ne.symm (index_file_ne_cache cache_dir))]
      exact hf
  · rw [if_neg g1] at h
    obtain ⟨hdirs, hfiles, hidx, hent⟩ := writeIndexStep_spec _ _ _ h
    exact ⟨Or.inl (hdirs cache_dir (by simp)), hidx, hent⟩

/-- Bootstrapping an already-bootstrapped state changes nothing. -/
lemma ensure_cache_dirs_idem (cache_dir : String) (fs fs' : FS)
    (h : ensure_cache_dirs cache_dir fs = some fs') :
    ensure_cache_dirs cache_dir fs' = some fs' := by
  obtain ⟨h1, h2, h3⟩ := ensure_cache_dirs_spec _ _ _ h
  unfold ensure_cache_dirs writeIndexStep mkEntriesDir
  rw [if_pos h1, if_pos h2, if_pos h3]

/-- C5: bootstrapping an empty (or missing) cache root produces exactly
the cache root directory, an index file holding the empty JSON array, and
an empty entries subdirectory; and bootstrap is idempotent — a second run
on an already-bootstrapped state changes nothing (in particular it never
overwrites an existing index file). -/
theorem C5_bootstrap_exact_and_idempotent (cache_dir : String) :
    ensure_cache_dirs cache_dir ⟨[], []⟩ =
      some ⟨[cache_dir, entries_dir cache_dir], [(index_file cache_dir, JValue.jarr [])]⟩ ∧
    ∀ fs fs', ensure_cache_dirs cache_dir fs = some fs' →
      ensure_cache_dirs cache_dir fs' = some fs' := by
  refine ⟨?_, fun fs fs' h => ensure_cache_dirs_idem cache_dir fs fs' h⟩
  have hne1 := index_file_ne_cache cache_dir
  have hne2 := entries_dir_ne_cache cache_dir
  have hne3 := entries_dir_ne_index cache_dir
  simp [ensure_cache_dirs, writeIndexStep, mkEntriesDir, setFile, FS.exists1, FS.isDir,
    jLookup, hne1, hne2, hne3, Ne.symm hne1, Ne.symm hne2, Ne.symm hne3]

/-- C5 witness: concrete bootstrap of an empty state at root `cache`, and
a second run on the produced state returning it unchanged. -/
theorem C5_bootstrap_exact_and_idempotent_witness :
    ensure_cache_dirs "cache" ⟨[], []⟩ =
      some ⟨["cache", "cache/entries"], [("cache/index.json", JValue.jarr [])]⟩ ∧
    ensure_cache_dirs "cache"
        ⟨["cache", "cache/entries"], [("cache/index.json", JValue.jarr [])]⟩ =
      some ⟨["cache", "cache/entries"], [("cache/index.json", JValue.jarr [])]⟩ := by
  constructor
  · exact (C5_bootstrap_exact_and_idempotent "cache").1
  · exact (C5_bootstrap_exact_and_idempotent "cache").2 _ _
      (C5_bootstrap_exact_and_idempotent "cache").1

/-- C6: after a slug's fetched entries object is persisted to the per-slug
file, immediately listing entries for that slug with no filter returns
exactly the persisted object's `entries` array, unchanged and in order. -/
theorem C6_roundtrip_entries (cache_dir slug : String) (fields : List (String × JValue))
    (fs fs' : FS) (l : List JValue)
    (hent : jLookup fields "entries" = some (JValue.jarr l))
    (hf : fetch_doc_entries cache_dir slug (JValue.jobj fields) fs = some fs') :
    get_doc_entries cache_dir slug fs' "" = some (JValue.jarr l) := by
  unfold fetch_doc_entries at hf
  by_cases hc : fs.isDir (entries_dir cache_dir) ∧ ¬ fs.isDir (entries_file cache_dir slug)
  · rw [if_pos hc] at hf
    injection hf with hf
    subst hf
    have hlook : jLookup (setFile fs.files (entries_file cache_dir slug) (JValue.jobj fields))
        (entries_file cache_dir slug) = some (JValue.jobj fields) :=
      jLookup_setFile_self _ _ _
    have hex : FS.exists1 ⟨fs.dirs, setFile fs.files (entries_file cache_dir slug)
        (JValue.jobj fields)⟩ (entries_file cache_dir slug) :=
      Or.inr (by rw [hlook]; rfl)
    unfold get_doc_entries
    rw [if_neg (not_not_intro hex)]
    simp [hlook, hent]
  · rw [if_neg hc] at hf
    exact absurd hf (by simp)

/-- C6 witness: a concrete fetch followed by an unfiltered listing. -/
theorem C6_roundtrip_entries_witness :
    get_doc_entries "c" "x"
        ⟨["c", "c/entries"],
         [("c/entries/x.json", JValue.jobj [("entries", JValue.jarr [JValue.jstr "a"])])]⟩
        "" =
      some (JValue.jarr [JValue.jstr "a"]) :=
  C6_roundtrip_entries "c" "x" [("entries", JValue.jarr [JValue.jstr "a"])]
    ⟨["c", "c/entries"], []⟩ _ [JValue.jstr "a"] rfl rfl

/-- Under the assumption that every element has a string name, the filter
comprehension succeeds and keeps, in order, exactly the elements whose
name contains the trimmed, lowered query. -/
lemma filterByName_eq (q : String) (nm : JValue → String) :
    ∀ xs : List JValue, (∀ x ∈ xs, entryName x = some (nm x)) →
      filterByName q xs =
        some (xs.filter (fun x => pyInStr (pyLower (pyStrip q)) (pyLower (nm x)))) := by
  intro xs
  induction xs with
  | nil => intro _; rfl
  | cons x rest ih =>
    intro h
    have hx := h x (List.mem_cons_self _ _)
    have hr := ih (fun y hy => h y (List.mem_cons_of_mem _ hy))
    unfold filterByName
    rw [hx, hr]
    by_cases hc : pyInStr (pyLower (pyStrip q)) (pyLower (nm x)) = true
    · simp [List.filter_cons, hc]
    · simp only [List.filter_cons]
      rw [if_neg hc, if_neg (by simpa using hc)]

/-- C7: listing docs with a non-empty filter returns exactly the
descriptors whose name contains the trimmed filter, compared
case-insensitively, preserving the on-disk order of the index file. -/
theorem C7_docs_filter (cache_dir : String) (fs : FS) (xs : List JValue)
    (nm : JValue → String) (q : String)
    (hidx : jLookup fs.files (index_file cache_dir) = some (JValue.jarr xs))
    (hnm : ∀ x ∈ xs, entryName x = some (nm x))
    (hq : q ≠ "") :
    get_docs cache_dir fs (some q) =
      some (JValue.jarr (xs.filter
        (fun x => pyInStr (pyLower (pyStrip q)) (pyLower (nm x))))) := by
  unfold get_docs
  rw [hidx]
  have hblt : (q != "") = true := by simpa using hq
  simp only [hblt, if_true]
  rw [filterByName_eq q nm xs hnm]
  rfl

/-- C7 witness: filter `Py` against an index holding Python and Go
returns only the Python descriptor. -/
theorem C7_docs_filter_witness :
    get_docs "c"
        ⟨["c"],
         [("c/index.json",
           JValue.jarr
             [JValue.jobj [("slug", JValue.jstr "python~3.10"), ("name", JValue.jstr "Python")],
              JValue.jobj [("slug", JValue.jstr "go"), ("name", JValue.jstr "Go")]])]⟩
        (some "Py") =
      some (JValue.jarr
        [JValue.jobj [("slug", JValue.jstr "python~3.10"), ("name", JValue.jstr "Python")]]) := by
  rw [C7_docs_filter "c"
    ⟨["c"],
     [("c/index.json",
       JValue.jarr
         [JValue.jobj [("slug", JValue.jstr "python~3.10"), ("name", JValue.jstr "Python")],
          JValue.jobj [("slug", JValue.jstr "go"), ("name", JValue.jstr "Go")]])]⟩
    [JValue.jobj [("slug", JValue.jstr "python~3.10"), ("name", JValue.jstr "Python")],
     JValue.jobj [("slug", JValue.jstr "go"), ("name", JValue.jstr "Go")]]
    (fun x => (entryName x).getD "") "Py" rfl
    (by intro x hx; fin_cases hx <;> rfl)
    (by decide)]
  rfl

/-- C8: for a slug with no entries file on disk, listing entries returns
an empty sequence for any filter argument, raising no error and touching
no file. -/
theorem C8_missing_entries_file (cache_dir slug query : String) (fs : FS)
    (h : ¬ fs.exists1 (entries_file cache_dir slug)) :
    get_doc_entries cache_dir slug fs query = some (JValue.jarr []) := by
  unfold get_doc_entries
  rw [if_pos h]

/-- C8 witness: an empty filesystem with an arbitrary filter. -/
theorem C8_missing_entries_file_witness :
    get_doc_entries "c" "x" ⟨[], []⟩ "some filter" = some (JValue.jarr []) :=
  C8_missing_entries_file "c" "x" "some filter" ⟨[], []⟩ (by simp [FS.exists1, jLookup])

/-- C9: a docs-to-fetch string that is not valid JSON is treated as the
empty list rather than raising, leaving the resolved docs-to-fetch empty;
a string that is valid JSON is parsed and resolved like a native list. -/
theorem C9_malformed_docs_json (all_slugs : List String) (s : String) :
    (pyJsonLoads s = none → set_docs_to_fetch all_slugs (.ofStr s) = some []) ∧
    (∀ j l, pyJsonLoads s = some j → pyIterStrs j = some l →
      set_docs_to_fetch all_slugs (.ofStr s) = set_docs_to_fetch all_slugs (.ofList l)) := by
  constructor
  · intro h
    simp only [set_docs_to_fetch]
    rw [h]
    rfl
  · intro j l hj hl
    simp only [set_docs_to_fetch, hj, hl]

/-- C9 witness: a malformed string leaves the list empty; a well-formed
JSON list is resolved like the native list. -/
theorem C9_malformed_docs_json_witness :
    set_docs_to_fetch ["python~3.9"] (.ofStr "not json") = some [] ∧
    set_docs_to_fetch ["python~3.9"] (.ofStr "[\"python\"]") =
      set_docs_to_fetch ["python~3.9"] (.ofList ["python"]) :=
  ⟨(C9_malformed_docs_json ["python~3.9"] "not json").1 rfl,
   (C9_malformed_docs_json ["python~3.9"] "[\"python\"]").2
     (JValue.jarr [JValue.jstr "python"]) ["python"] rfl rfl⟩

/-- C10: for both list-docs and list-entries, an empty-string filter
behaves exactly like no filter, returning the full stored value in its
on-disk order with no substring filtering and no similarity re-ranking. -/
theorem C10_empty_filter_is_no_filter (cache_dir slug : String) (fs : FS) :
    get_docs cache_dir fs (some "") = get_docs cache_dir fs none ∧
    (∀ v, jLookup fs.files (index_file cache_dir) = some v →
      get_docs cache_dir fs (some "") = some v) ∧
    (∀ fields e, fs.exists1 (entries_file cache_dir slug) →
      jLookup fs.files (entries_file cache_dir slug) = some (JValue.jobj fields) →
      jLookup fields "entries" = some e →
      get_doc_entries cache_dir slug fs "" = some e) := by
  refine ⟨?_, ?_, ?_⟩
  · unfold get_docs
    cases hl : jLookup fs.files (index_file cache_dir) <;> simp
  · intro v hv
    unfold get_docs
    rw [hv]
    rfl
  · intro fields e hex hfile hent
    unfold get_doc_entries
    rw [if_neg (not_not_intro hex)]
    simp [hfile, hent]

/-- C10 witness: a concrete state where both query interfaces return the
stored data unchanged under an empty-string filter. -/
theorem C10_empty_filter_is_no_filter_witness :
    get_docs "c"
        ⟨["c"], [("c/index.json", JValue.jarr [JValue.jstr "d"]),
                 ("c/entries/x.json", JValue.jobj [("entries", JValue.jarr [JValue.jnum 7])])]⟩
        (some "") =
      some (JValue.jarr [JValue.jstr "d"]) ∧
    get_doc_entries "c" "x"
        ⟨["c"], [("c/index.json", JValue.jarr [JValue.jstr "d"]),
                 ("c/entries/x.json", JValue.jobj [("entries", JValue.jarr [JValue.jnum 7])])]⟩
        "" =
      some (JValue.jarr [JValue.jnum 7]) :=
  ⟨(C10_empty_filter_is_no_filter "c" "x" _).2.1 (JValue.jarr [JValue.jstr "d"]) rfl,
   (C10_empty_filter_is_no_filter "c" "x" _).2.2 [("entries", JValue.jarr [JValue.jnum 7])]
     (JValue.jarr [JValue.jnum 7]) (Or.inr rfl) rfl rfl⟩

/-! Support for the relevance-ranking claim. -/

lemma findLongestMatch_nil_right (a : List Char) : findLongestMatch a [] = (0, 0, 0) := by
  unfold findLongestMatch
  suffices h : ∀ (l : List (Nat × Char)) (st : List Nat × (Nat × Nat × Nat)),
      (l.foldl (fun st ic =>
        (lcsRow ic.2 [] st.1 0, bestInRow ic.1 (lcsRow ic.2 [] st.1 0) st.2)) st).2 = st.2 by
    exact h _ _
  intro l
  induction l with
  | nil => intro st; rfl
  | cons ic rest ih =>
    intro st
    rw [List.foldl_cons, ih]
    rfl

lemma matchTotal_nil_right (a : List Char) : matchTotal a [] = 0 := by
  show matchTotalF (a.length + 1) a [] = 0
  simp [matchTotalF, findLongestMatch_nil_right]

/-- Nonempty strings have positive length. -/
lemma strLength_pos (q : String) (hq : q ≠ "") : 0 < q.length := by
  cases q with
  | mk l =>
    cases l with
    | nil => exact absurd rfl hq
    | cons c cs => simp [String.length]

/-- For a nonempty query, the cross-multiplied comparator is exactly the
comparison of the similarity ratios. -/
lemma entryBefore_iff (q : String) (hq : q ≠ "") (p p' : JValue × String) :
    entryBefore q p p' ↔ seqRatio p'.2 q ≤ seqRatio p.2 q := by
  have hql : 0 < q.length := strLength_pos q hq
  unfold entryBefore seqRatio
  rw [if_neg (by omega), if_neg (by omega)]
  rw [div_le_div_iff₀
    (by exact_mod_cast Nat.pos_of_ne_zero (by omega) : (0 : ℚ) < ((p'.2.length + q.length : ℕ) : ℚ))
    (by exact_mod_cast Nat.pos_of_ne_zero (by omega) : (0 : ℚ) < ((p.2.length + q.length : ℕ) : ℚ))]
  constructor <;> intro h <;> exact_mod_cast h

instance (q : String) : IsTotal (JValue × String) (entryBefore q) :=
  ⟨fun p p' => Nat.le_total _ _⟩

instance (q : String) : IsTrans (JValue × String) (entryBefore q) := by
  constructor
  intro p1 p2 p3 h12 h23
  by_cases hq : q = ""
  · subst hq
    show 2 * matchTotal p3.2.toList "".toList * _ ≤ 2 * matchTotal p1.2.toList "".toList * _
    simp [matchTotal_nil_right]
  · have hql : 0 < q.length := strLength_pos q hq
    unfold entryBefore at h12 h23 ⊢
    have key : 2 * matchTotal p3.2.toList q.toList * (p1.2.length + q.length) *
        (p2.2.length + q.length) ≤
        2 * matchTotal p1.2.toList q.toList * (p3.2.length + q.length) *
        (p2.2.length + q.length) := by
      calc 2 * matchTotal p3.2.toList q.toList * (p1.2.length + q.length) *
            (p2.2.length + q.length)
          = 2 * matchTotal p3.2.toList q.toList * (p2.2.length + q.length) *
            (p1.2.length + q.length) := by ring
        _ ≤ 2 * matchTotal p2.2.toList q.toList * (p3.2.length + q.length) *
            (p1.2.length + q.length) := Nat.mul_le_mul_right _ h23
        _ = 2 * matchTotal p2.2.toList q.toList * (p1.2.length + q.length) *
            (p3.2.length + q.length) := by ring
        _ ≤ 2 * matchTotal p1.2.toList q.toList * (p2.2.length + q.length) *
            (p3.2.length + q.length) := Nat.mul_le_mul_right _ h12
        _ = 2 * matchTotal p1.2.toList q.toList * (p3.2.length + q.length) *
            (p2.2.length + q.length) := by ring
    exact Nat.le_of_mul_le_mul_right key (by omega)

/-- Under the assumption that every element has a string name, pairing
each entry with its name succeeds. -/
lemma withNames_eq (nm : JValue → String) :
    ∀ xs : List JValue, (∀ x ∈ xs, entryName x = some (nm x)) →
      withNames xs = some (xs.map (fun x => (x, nm x))) := by
  intro xs
  induction xs with
  | nil => intro _; rfl
  | cons x rest ih =>
    intro h
    have hx := h x (List.mem_cons_self _ _)
    have hr := ih (fun y hy => h y (List.mem_cons_of_mem _ hy))
    unfold withNames
    rw [hx, hr]
    rfl

/-- C3: with a non-empty filter, the listed entries are exactly those
whose name contains the trimmed, case-insensitive filter substring (a
permutation of the kept entries), ordered by descending similarity ratio
between each entry's raw name and the raw filter string, ties preserving
the entries' original relative order. -/
theorem C3_entries_filter_and_rank (cache_dir slug q : String) (fs : FS)
    (fields : List (String × JValue)) (xs : List JValue) (nm : JValue → String)
    (hfile : jLookup fs.files (entries_file cache_dir slug) = some (JValue.jobj fields))
    (hent : jLookup fields "entries" = some (JValue.jarr xs))
    (hnm : ∀ x ∈ xs, entryName x = some (nm x))
    (hq : q ≠ "") :
    ∃ out, get_doc_entries cache_dir slug fs q = some (JValue.jarr out) ∧
      List.Perm out
        (xs.filter (fun x => pyInStr (pyLower (pyStrip q)) (pyLower (nm x)))) ∧
      out.Pairwise (fun x y => seqRatio (nm y) q ≤ seqRatio (nm x) q) ∧
      ∀ x y, List.Sublist [x, y]
          (xs.filter (fun x => pyInStr (pyLower (pyStrip q)) (pyLower (nm x)))) →
        seqRatio (nm x) q = seqRatio (nm y) q →
        List.Sublist [x, y] out := by
  have hex : fs.exists1 (entries_file cache_dir slug) := Or.inr (by rw [hfile]; rfl)
  have hbq : (q != "") = true := by simpa using hq
  refine ⟨(((xs.filter (fun x => pyInStr (pyLower (pyStrip q)) (pyLower (nm x)))).map
      (fun x => (x, nm x))).insertionSort (entryBefore q)).map Prod.fst, ?_, ?_, ?_, ?_⟩
  · simp only [get_doc_entries]
    rw [if_neg (not_not_intro hex)]
    simp only [hfile, hent, hbq, if_true, rankEntries, withNames_eq nm xs hnm,
      List.filter_map]
    rfl
  · have hp := (List.perm_insertionSort (entryBefore q)
      ((xs.filter (fun x => pyInStr (pyLower (pyStrip q)) (pyLower (nm x)))).map
        (fun x => (x, nm x)))).map Prod.fst
    simpa [List.map_map, Function.comp_def] using hp
  · have hs := List.sorted_insertionSort (entryBefore q)
      ((xs.filter (fun x => pyInStr (pyLower (pyStrip q)) (pyLower (nm x)))).map
        (fun x => (x, nm x)))
    rw [List.pairwise_map]
    refine hs.imp_of_mem ?_
    intro p p' hp hp' hrel
    obtain ⟨x1, _, hx1⟩ := List.mem_map.mp ((List.mem_insertionSort _).mp hp)
    obtain ⟨x2, _, hx2⟩ := List.mem_map.mp ((List.mem_insertionSort _).mp hp')
    have h1 : p.2 = nm p.1 := by rw [← hx1]
    have h2 : p'.2 = nm p'.1 := by rw [← hx2]
    have := (entryBefore_iff q hq p p').mp hrel
    rwa [h1, h2] at this
  · intro x y hsub heq
    have hsub' : List.Sublist [(x, nm x), (y, nm y)]
        ((xs.filter (fun x => pyInStr (pyLower (pyStrip q)) (pyLower (nm x)))).map
          (fun x => (x, nm x))) := by
      have := hsub.map (fun x => (x, nm x))
      simpa using this
    have hpair : List.Pairwise (entryBefore q) [(x, nm x), (y, nm y)] :=
      List.pairwise_pair.mpr ((entryBefore_iff q hq _ _).mpr (le_of_eq heq.symm))
    have hL := List.sublist_insertionSort hpair hsub'
    have := hL.map Prod.fst
    simpa using this

/-- C3 witness: for entries named `foobar` and `foo` (stored in that
order) and query `foo`, the entry `foo` ranks first; and the ranked
output is the theorem's permutation of the kept entries at this input. -/
theorem C3_entries_filter_and_rank_witness :
    get_doc_entries "c" "x"
        ⟨["c", "c/entries"],
         [("c/entries/x.json",
           JValue.jobj [("entries",
             JValue.jarr [JValue.jobj [("name", JValue.jstr "foobar")],
                          JValue.jobj [("name", JValue.jstr "foo")]])])]⟩
        "foo" =
      some (JValue.jarr [JValue.jobj [("name", JValue.jstr "foo")],
                         JValue.jobj [("name", JValue.jstr "foobar")]]) ∧
    ∃ out,
      get_doc_entries "c" "x"
          ⟨["c", "c/entries"],
           [("c/entries/x.json",
             JValue.jobj [("entries",
               JValue.jarr [JValue.jobj [("name", JValue.jstr "foobar")],
                            JValue.jobj [("name", JValue.jstr "foo")]])])]⟩
          "foo" =
        some (JValue.jarr out) ∧
      List.Perm out [JValue.jobj [("name", JValue.jstr "foobar")],
                     JValue.jobj [("name", JValue.jstr "foo")]] :=
  ⟨rfl, by
    obtain ⟨out, h1, h2, _, _⟩ :=
      C3_entries_filter_and_rank "c" "x" "foo"
        ⟨["c", "c/entries"],
         [("c/entries/x.json",
           JValue.jobj [("entries",
             JValue.jarr [JValue.jobj [("name", JValue.jstr "foobar")],
                          JValue.jobj [("name", JValue.jstr "foo")]])])]⟩
        [("entries",
          JValue.jarr [JValue.jobj [("name", JValue.jstr "foobar")],
                       JValue.jobj [("name", JValue.jstr "foo")]])]
        [JValue.jobj [("name", JValue.jstr "foobar")],
         JValue.jobj [("name", JValue.jstr "foo")]]
        (fun x => (entryName x).getD "") rfl rfl
        (by intro x hx; fin_cases hx <;> rfl) (by decide)
    exact ⟨out, h1, h2⟩⟩
